import Mathlib

/- Shallow embedding of src/multilabel.py (mindboggle majority-vote
   multi-labeling): `combine_labels`, `vote_labels` together with the
   CPython 2.7 `collections.Counter` behavior it relies on, and
   `read_annot` (FreeSurfer .annot decoding) over a big-endian byte list.
   The source is Python 2 (`xrange`, `print` statements), so the library
   semantics modelled here are those of CPython 2.7. -/

/-- Errors raised by the Python code: IndexError / ValueError from numpy and
list indexing, and the two explicit `Exception`s of `read_annot`.
`modelFuel` is an artifact of the bounded probe loop of the dictionary
model below; it corresponds to no Python behavior and never arises on the
tables built here. -/
inductive PyError where
  | indexError
  | valueError
  | missingColorTable
  | unsupportedVersion
  | modelFuel
deriving DecidableEq, Repr

/-- Decidable equality of `Except` results, for deciding concrete runs. -/
instance exceptDecEq {ε α : Type} [DecidableEq ε] [DecidableEq α] :
    DecidableEq (Except ε α)
  | .error e, .error f =>
    if h : e = f then isTrue (by rw [h])
    else isFalse (fun c => by injection c; contradiction)
  | .error _, .ok _ => isFalse (fun c => Except.noConfusion c)
  | .ok _, .error _ => isFalse (fun c => Except.noConfusion c)
  | .ok a, .ok b =>
    if h : a = b then isTrue (by rw [h])
    else isFalse (fun c => by injection c; contradiction)

/-- `combine_labels` from multilabel.py: replace some labels by combined
labels (2 = 2,10,23,26; 3 = 3,27; 18 = 18,19,20). -/
def combine_labels (label_index : Int) : Int :=
  if label_index = 10 ∨ label_index = 23 ∨ label_index = 26 then 2
  else if label_index = 27 then 3
  else if label_index = 19 ∨ label_index = 20 then 18
  else label_index

/-- Python 2 integer hash (`hash(n) = n`, except `hash(-1) = -2`), taken as
the C `size_t` value, i.e. reduced modulo 2^64. -/
def pyhash (k : Int) : Nat :=
  ((if k = -1 then (-2 : Int) else k) % (2 : Int) ^ 64).toNat

/-- The CPython 2.7 `lookdict` probe loop over a slot array (open
addressing): the current slot is `i & mask`; the recurrence is
`i = 5 * i + perturb + 1` on the full-width `i` with `perturb` starting at
the hash and shifted right by 5 each round.  Table sizes are powers of two,
so `i & mask` is written `i % size`.  Returns the index of the first slot
that is empty or holds `k`; `none` when the fuel bound is exhausted (which
never happens on the tables built here). -/
def probeLoop (slots : List (Option Int)) (k : Int) :
    Nat → Nat → Nat → Option Nat
  | 0, _, _ => none
  | fuel + 1, i, perturb =>
    let s := i % slots.length
    match slots.getD s none with
    | none => some s
    | some k' =>
      if k' = k then some s
      else probeLoop slots k fuel ((5 * i + perturb + 1) % 2 ^ 64) (perturb / 2 ^ 5)

/-- Probe for key `k`, starting as CPython does at `i = hash & mask` with
`perturb = hash`. -/
def findSlot (slots : List (Option Int)) (k : Int) : Option Nat :=
  probeLoop slots k (slots.length + 64) (pyhash k % slots.length) (pyhash k)

/-- The keys stored in a slot array, in slot order — the iteration order of
a CPython 2.7 dict. -/
def readKeys (slots : List (Option Int)) : List Int :=
  slots.filterMap id

/-- The `dictresize` size computation: the smallest power of two above
`minused`, doubling from `PyDict_MINSIZE = 8`. -/
def growSize (s m : Nat) : Nat :=
  if h : 0 < s ∧ s ≤ m then growSize (2 * s) m else s
termination_by m + 1 - s
decreasing_by omega

/-- Reinsertion of one key into a fresh slot array during `dictresize`. -/
def insertClean (slots : List (Option Int)) (k : Int) :
    Option (List (Option Int)) :=
  (findSlot slots k).map (fun s => slots.set s (some k))

/-- CPython 2.7 dict state: the slot array plus the fill count (with no
deletions, `fill = used` = number of stored keys). -/
structure PyTable where
  slots : List (Option Int)
  fill : Nat
deriving Repr

/-- `dictresize`: grow to the smallest power of two above `4 * used` (for
`used < 50000`) and reinsert every key in its current slot order. -/
def dictGrow (t : PyTable) : Option PyTable := do
  let slots ← (readKeys t.slots).foldlM insertClean
    (List.replicate (growSize 8 (4 * t.fill)) none)
  pure ⟨slots, t.fill⟩

/-- `insertdict` on a CPython 2.7 dict used as a counter: probe for the key;
an existing key only has its value bumped (layout unchanged); a new key
fills the empty slot found and triggers a resize once
`fill * 3 ≥ size * 2`. -/
def insertKey (t : PyTable) (k : Int) : Option PyTable := do
  let s ← findSlot t.slots k
  match t.slots.getD s none with
  | some _ => pure t
  | none =>
    let t' : PyTable := ⟨t.slots.set s (some k), t.fill + 1⟩
    if t'.fill * 3 ≥ t'.slots.length * 2 then dictGrow t' else pure t'

/-- Key layout of the dict underlying `collections.Counter(l)`: Counter's
update loop runs `self[elem] = self.get(elem, 0) + 1` over `l`, so the slot
layout is determined by the keys in first-occurrence order and each key's
final value is its number of occurrences in `l`. -/
def counterTable (l : List Int) : Option PyTable :=
  l.foldlM insertKey ⟨List.replicate 8 none, 0⟩

/-- `Counter(l).iteritems()` as a list: keys in slot (iteration) order, each
paired with its stored count `l.count k`. -/
def counterItems (l : List Int) : Option (List (Int × Nat)) :=
  (counterTable l).map (fun t => (readKeys t.slots).map (fun k => (k, l.count k)))

/-- Python's builtin `max(items, key=itemgetter(1))`: the first item in
iteration order with maximal count (an item replaces the accumulator only
when strictly greater). -/
def firstMaxByCount : List (Int × Nat) → Option (Int × Nat)
  | [] => none
  | x :: xs => some (xs.foldl (fun acc y => if acc.2 < y.2 then y else acc) x)

/-- Head of `Counter(l).most_common(1)`: in Python 2.7,
`heapq.nlargest(1, items, key=itemgetter(1))` short-circuits to `max`, so
this is the first maximal-count item of the dict's iteration order.  The
outer `none` is probe-fuel exhaustion of the model; the inner `none` is an
empty counter (whose `most_common(1)` is `[]`). -/
def mostCommon1 (l : List Int) : Option (Option (Int × Nat)) :=
  (counterItems l).map firstMaxByCount

/-- The per-vertex vote list `[labels[i][vertex] for i in xrange(21)]` of
`vote_labels` — the contributor count 21 is hard-coded in the source;
`none` is the comprehension's IndexError. -/
def buildVotes (ls : List (List Int)) (vertex : Nat) : Option (List Int) :=
  (List.range 21).mapM (fun i => (ls.get? i).bind (fun li => li.get? vertex))

/-- `votes.most_common(1)[0][0]` for one vertex. -/
def voteVertex (ls : List (List Int)) (vertex : Nat) : Except PyError Int :=
  match buildVotes ls vertex with
  | none => .error .indexError
  | some votes =>
    match mostCommon1 votes with
    | none => .error .modelFuel
    | some none => .error .indexError
    | some (some kc) => .ok kc.1

/-- `vote_labels` from multilabel.py.  The vertex counts are read first from
the head vector of each side (`len(left_labels[0])`,
`len(right_labels[0])` — an IndexError on an empty side aborts the whole
call), then every vertex of the left and then the right hemisphere is
assigned its majority label.  `compute_diff_consensus` is hard-coded to 0,
so exactly the two assignment vectors are returned. -/
def vote_labels (left_labels right_labels : List (List Int)) :
    Except PyError (List Int × List Int) := do
  let left0 ← match left_labels.get? 0 with
    | none => Except.error PyError.indexError
    | some x => Except.ok x
  let right0 ← match right_labels.get? 0 with
    | none => Except.error PyError.indexError
    | some x => Except.ok x
  let left_assign ← (List.range left0.length).mapM (voteVertex left_labels)
  let right_assign ← (List.range right0.length).mapM (voteVertex right_labels)
  pure (left_assign, right_assign)

/-- Big-endian signed int32 from four bytes. -/
def beInt32 (b0 b1 b2 b3 : Nat) : Int :=
  let v : Nat := b0 * 2 ^ 24 + b1 * 2 ^ 16 + b2 * 2 ^ 8 + b3
  if v < 2 ^ 31 then (v : Int) else (v : Int) - 2 ^ 32

/-- `np.fromfile(f, ">i4", 1)[0]`: one big-endian int32; numpy returns an
empty array when fewer than four bytes remain, and the `[0]` then raises
IndexError. -/
def readInt32 : List Nat → Except PyError (Int × List Nat)
  | b0 :: b1 :: b2 :: b3 :: rest => .ok (beInt32 b0 b1 b2 b3, rest)
  | _ => .error .indexError

/-- `np.fromfile(f, ">i4", n)` for `n ≥ 0`: up to `n` complete big-endian
int32 items, stopping early (without error) at end of file. -/
def readInt32s : Nat → List Nat → (List Int × List Nat)
  | 0, bs => ([], bs)
  | n + 1, b0 :: b1 :: b2 :: b3 :: rest =>
    let (xs, rest') := readInt32s n rest
    (beInt32 b0 b1 b2 b3 :: xs, rest')
  | _ + 1, bs => ([], bs)

/-- `np.fromfile` with a negative count reads to end of file. -/
def readInt32sAll (bs : List Nat) : (List Int × List Nat) :=
  readInt32s (bs.length / 4) bs

/-- Second column of the `(vnum, 2)`-reshaped vertex data. -/
def oddEntries : List Int → List Int
  | _ :: b :: rest => b :: oddEntries rest
  | _ => []

/-- Steps 1–2 of `read_annot`: `vnum * 2` int32s reshaped to `(vnum, 2)`;
the labels are the second column.  A negative `vnum` makes `np.fromfile`
read to end of file; `reshape(vnum, 2)` then succeeds only for `vnum = -1`
with an even item count (numpy infers a single `-1` dimension), and raises
ValueError otherwise, as it also does when the item count is not
`2 * vnum`. -/
def readVertexData (vnum : Int) (bs : List Nat) :
    Except PyError (List Int × List Nat) :=
  if vnum < 0 then
    let (items, rest) := readInt32sAll bs
    if vnum = -1 ∧ items.length % 2 = 0 then .ok (oddEntries items, rest)
    else .error .valueError
  else
    let (items, rest) := readInt32s (2 * vnum.toNat) bs
    if items.length = 2 * vnum.toNat then .ok (oddEntries items, rest)
    else .error .valueError

/-- Trailing-NUL stripping that numpy applies to `|S` byte strings. -/
def stripTrailingNuls (s : List Nat) : List Nat :=
  (s.reverse.dropWhile (· = 0)).reverse

/-- `np.fromfile(f, "|S%d" % n, 1)[0]`: one `n`-byte string with trailing
NUL bytes stripped; fewer than `n` bytes left yields an empty array, whose
`[0]` raises IndexError.  A negative `n` is an invalid dtype
(ValueError). -/
def readString (n : Int) (bs : List Nat) :
    Except PyError (List Nat × List Nat) :=
  if n < 0 then .error .valueError
  else if bs.length < n.toNat then .error .indexError
  else .ok (stripTrailingNuls (bs.take n.toNat), bs.drop n.toNat)

/-- `np.fromfile(f, ">c", n)`: up to `n` single bytes, to end of file for a
negative `n`; no error on a short read.  The result (`orig_tab`) is
discarded by `read_annot`, so only the consumed bytes matter. -/
def skipChars (n : Int) (bs : List Nat) : List Nat :=
  if n < 0 then [] else bs.drop n.toNat

/-- One legacy color-table entry (read_annot lines 86–92): a
length-prefixed name, four int32s R,G,B,A (`ctab[i,:4] = ` a short array is
a ValueError), and the packed id `R + G·2^8 + B·2^16 + A·2^24`. -/
def parseLegacyEntry (bs : List Nat) :
    Except PyError ((List Nat × List Int) × List Nat) := do
  let (name_length, bs) ← readInt32 bs
  let (name, bs) ← readString name_length bs
  let (rgba, bs) := readInt32s 4 bs
  if rgba.length = 4 then
    let r := rgba.getD 0 0
    let g := rgba.getD 1 0
    let b := rgba.getD 2 0
    let a := rgba.getD 3 0
    .ok ((name, [r, g, b, a, r + g * 2 ^ 8 + b * 2 ^ 16 + a * 2 ^ 24]), bs)
  else .error .valueError

/-- The legacy loop `for i in xrange(n_entries)`; every row of the table is
written by its iteration. -/
def parseLegacyEntries : Nat → List Nat →
    Except PyError (List (List Nat) × List (List Int) × List Nat)
  | 0, bs => .ok ([], [], bs)
  | n + 1, bs => do
    let ((name, row), bs) ← parseLegacyEntry bs
    let (names, rows, rest) ← parseLegacyEntries n bs
    .ok (name :: names, row :: rows, rest)

/-- One version-2 color-table entry (lines 104–110): a discarded structure
int32, a length-prefixed name, four int32s R,G,B,A, and a packed id
`R + G·2^8 + B·2^16` without the A term. -/
def parseV2Entry (bs : List Nat) :
    Except PyError ((List Nat × List Int) × List Nat) := do
  let (_, bs) ← readInt32 bs
  let (name_length, bs) ← readInt32 bs
  let (name, bs) ← readString name_length bs
  let (rgba, bs) := readInt32s 4 bs
  if rgba.length = 4 then
    let r := rgba.getD 0 0
    let g := rgba.getD 1 0
    let b := rgba.getD 2 0
    let a := rgba.getD 3 0
    .ok ((name, [r, g, b, a, r + g * 2 ^ 8 + b * 2 ^ 16]), bs)
  else .error .valueError

/-- The version-2 loop `for i in xrange(entries_to_read)`, writing row `i`
of the pre-allocated `np.zeros((n_entries, 5))` table; writing past its end
is an IndexError. -/
def parseV2Entries : Nat → Nat → List (List Int) → List Nat →
    Except PyError (List (List Nat) × List (List Int) × List Nat)
  | _, 0, rows, bs => .ok ([], rows, bs)
  | i, todo + 1, rows, bs => do
    let ((name, row), bs) ← parseV2Entry bs
    if i < rows.length then
      let (names, rows', rest) ← parseV2Entries (i + 1) todo (rows.set i row) bs
      .ok (name :: names, rows', rest)
    else .error .indexError

/-- Step 4 of `read_annot`: the color table.  `n_entries > 0` is the legacy
single-table format (a length-prefixed origin string is consumed, then
`n_entries` entries); otherwise `-n_entries` is a format version of which
only 2 is supported: the true entry count (negative → `np.zeros`
ValueError), a length-prefixed origin path, the serialized-entry count, and
the entries. -/
def parseColorTable (n_entries : Int) (bs : List Nat) :
    Except PyError (List (List Int) × List (List Nat) × List Nat) :=
  if n_entries > 0 then do
    let (length, bs) ← readInt32 bs
    let bs := skipChars length bs
    let (names, rows, rest) ← parseLegacyEntries n_entries.toNat bs
    .ok (rows, names, rest)
  else if -n_entries ≠ 2 then .error .unsupportedVersion
  else do
    let (n2, bs) ← readInt32 bs
    if n2 < 0 then .error .valueError
    else do
      let (length, bs) ← readInt32 bs
      let (_, bs) ← readString length bs
      let (entries_to_read, bs) ← readInt32 bs
      let (names, rows, rest) ← parseV2Entries 0 entries_to_read.toNat
        (List.replicate n2.toNat (List.replicate 5 (0 : Int))) bs
      .ok (rows, names, rest)

/-- `np.argsort(keys)`: a permutation of `0 .. n-1` listing indices in
order of nondecreasing key.  (numpy's default sort is unstable; every use
in `read_annot` relies only on the sorted key order.) -/
def argsort (keys : List Int) : List Nat :=
  List.insertionSort (fun i j => keys.getD i 0 ≤ keys.getD j 0)
    (List.range keys.length)

/-- The `lo`/`hi` bisection of numpy's `searchsorted(a, v, side="left")`;
fuel `a.length` bounds the rounds, which suffices since the half-open
interval at least halves each round. -/
def bisectLoop (a : List Int) (v : Int) : Nat → Nat → Nat → Nat
  | 0, lo, _ => lo
  | fuel + 1, lo, hi =>
    if lo < hi then
      let mid := lo + (hi - lo) / 2
      if a.getD mid 0 < v then bisectLoop a v fuel (mid + 1) hi
      else bisectLoop a v fuel lo mid
    else lo

/-- `np.searchsorted(a, v)` (side `"left"`). -/
def searchsorted (a : List Int) (v : Int) : Nat :=
  bisectLoop a v a.length 0 a.length

/-- The parsing part of `read_annot` (its `with open` block): the labels as
stored in the file, the color table with its alpha column forced to 255
(`ctab[:, 3] = 255`, line 111, applied on both parse paths), and the
names.  `ctab` rows are `[R, G, B, A, packed_id]`. -/
def read_annot_core (bytes : List Nat) :
    Except PyError (List Int × List (List Int) × List (List Nat)) := do
  let (vnum, bs) ← readInt32 bytes
  let (labels, bs) ← readVertexData vnum bs
  let (ctab_exists, bs) ← readInt32 bs
  if ctab_exists = 0 then .error .missingColorTable
  else do
    let (n_entries, bs) ← readInt32 bs
    let (ctab0, names, _) ← parseColorTable n_entries bs
    .ok (labels, ctab0.map (fun row => row.set 3 255), names)

/-- Lines 112–114 of multilabel.py: `ord = np.argsort(ctab[:, -1])` and
`labels = ord[np.searchsorted(ctab[ord, -1], labels)]` (an out-of-range
fancy index raises IndexError). -/
def remapLabels (ctab : List (List Int)) (labels : List Int) :
    Except PyError (List Int) :=
  let packed := ctab.map (fun row => row.getD 4 0)
  let ord := argsort packed
  let sortedPacked := ord.map (fun i => packed.getD i 0)
  labels.mapM (fun l =>
    match ord.get? (searchsorted sortedPacked l) with
    | none => Except.error PyError.indexError
    | some k => Except.ok ((k : Nat) : Int))

/-- `read_annot` from multilabel.py over the file's bytes: parse, then
unless `orig_ids` is set remap each raw label through the argsorted packed
ids of the color table. -/
def read_annot (bytes : List Nat) (orig_ids : Bool) :
    Except PyError (List Int × List (List Int) × List (List Nat)) := do
  let (labels, ctab, names) ← read_annot_core bytes
  if orig_ids then .ok (labels, ctab, names)
  else do
    let out ← remapLabels ctab labels
    .ok (out, ctab, names)

/-- Big-endian encoding of an int32, for building concrete test files. -/
def encInt32 (n : Int) : List Nat :=
  let m := (n % 2 ^ 32).toNat
  [m / 2 ^ 24 % 256, m / 2 ^ 16 % 256, m / 2 ^ 8 % 256, m % 256]

/-- The color-table section (after the entry-count field) of the legacy
test file: a length-2 origin string and two entries with packed ids 5 and
3 — deliberately not in sorted order. -/
def legacyTableBytes : List Nat :=
  encInt32 2 ++ [97, 0] ++
  (encInt32 2 ++ [120, 0] ++ encInt32 5 ++ encInt32 0 ++ encInt32 0 ++ encInt32 0) ++
  (encInt32 2 ++ [121, 0] ++ encInt32 3 ++ encInt32 0 ++ encInt32 0 ++ encInt32 0)

/-- A legacy-format annotation file: one vertex with raw label 3, and a
two-entry color table whose packed ids (5, then 3) are not in file
order. -/
def legacyBytes : List Nat :=
  encInt32 1 ++ encInt32 0 ++ encInt32 3 ++ encInt32 1 ++ encInt32 2 ++
  legacyTableBytes

/-- A version-2 annotation file (table version marker `-2`): one vertex
with raw label 1 and a one-entry table with packed id 1. -/
def v2Bytes : List Nat :=
  encInt32 1 ++ encInt32 0 ++ encInt32 1 ++ encInt32 1 ++ encInt32 (-2) ++
  encInt32 1 ++ encInt32 2 ++ [112, 0] ++ encInt32 1 ++
  (encInt32 0 ++ encInt32 2 ++ [120, 0] ++
   encInt32 1 ++ encInt32 0 ++ encInt32 0 ++ encInt32 0)

/-- Stated from the spec's words, for comparison with the code: the winning
label is the most frequent vote, and among labels tying for the maximum
frequency the winner is the one encountered first when scanning the votes
in file order. -/
def specFirstMaxInScanOrder (votes : List Int) : Option Int :=
  votes.find? (fun x => votes.count x = (votes.map votes.count).foldl max 0)

/-- Stated from the spec's words, for comparison with the code: sort the
packed ids, binary-search the raw label, and output the sorted rank
itself. -/
def specSortedRank (packed : List Int) (l : Int) : Nat :=
  searchsorted (List.insertionSort (fun a b => a ≤ b) packed) l

/-- A 21-file single-vertex left hemisphere producing a genuine tie: ten
votes for 2 (scanned first), ten votes for 1, one vote for 7. -/
def tieLeft : List (List Int) :=
  List.replicate 10 [2] ++ List.replicate 10 [1] ++ [[7]]

/-- A 21-file left hemisphere whose vectors have unequal lengths: the first
has one vertex, the remaining twenty have two. -/
def unevenLeft : List (List Int) :=
  [[7]] ++ List.replicate 20 [7, 8]

/-- C6: `combine_labels` is pure and total, idempotent, and its value is
always one of 2, 3, 18 or the input itself. -/
theorem combine_labels_idempotent_and_codomain (i : Int) :
    combine_labels (combine_labels i) = combine_labels i ∧
    (combine_labels i = 2 ∨ combine_labels i = 3 ∨ combine_labels i = 18 ∨
      combine_labels i = i) := by
  unfold combine_labels
  split_ifs <;> omega

/-- C9 (amended): an empty collection on either side raises IndexError at
the vertex-count reads (`len(left_labels[0])`, `len(right_labels[0])`)
before any voting, so the whole `vote_labels` call fails and the sibling
hemisphere's assignment is not returned either. -/
theorem vote_labels_empty_side_aborts_both (L R : List (List Int)) :
    vote_labels L [] = .error .indexError ∧
    vote_labels [] R = .error .indexError := by
  constructor
  · cases L with
    | nil => rfl
    | cons x xs => rfl
  · rfl

/-- C9 counterexample: with a valid 21-file left collection and an empty
right group, `vote_labels` raises instead of returning; in particular no
left-hemisphere assignment is computed and returned. -/
theorem vote_labels_sibling_not_returned :
    vote_labels (List.replicate 21 [(4 : Int)]) [] = .error .indexError ∧
    (vote_labels (List.replicate 21 [(4 : Int)]) []).toOption = none := by
  exact ⟨rfl, rfl⟩

/-- C3 counterexample: a singleton collection (N = 1) on each side.
Instead of tallying the single vote 5 and assigning it, the hard-coded
`xrange(21)` tally raises IndexError at `left_labels[1]`. -/
theorem vote_labels_single_file_fails :
    vote_labels [[(5 : Int)]] [[(5 : Int)]] = .error .indexError ∧
    (vote_labels [[(5 : Int)]] [[(5 : Int)]]).toOption = none := by
  exact ⟨rfl, rfl⟩

/-- C2 counterexample: at the single vertex of `tieLeft` the votes are ten
2s (scanned first), ten 1s and one 7.  The spec's tie-break picks 2, the
first-encountered maximal label; Python 2.7's `Counter.most_common(1)`
iterates the counting dict in hash-slot order and picks 1. -/
theorem vote_labels_tiebreak_counterexample :
    vote_labels tieLeft (List.replicate 21 [5]) = .ok ([1], [5]) ∧
    specFirstMaxInScanOrder (tieLeft.map (fun f => f.getD 0 0)) = some 2 ∧
    (1 : Int) ≠ 2 := by
  refine ⟨rfl, rfl, by decide⟩

/-- C4 counterexample: a collection whose vectors have unequal lengths (1
and 2) is accepted without any consistency check: `vote_labels` returns an
assignment (of the first vector's length) instead of failing. -/
theorem vote_labels_unequal_lengths_return :
    (unevenLeft.getD 0 []).length = 1 ∧ (unevenLeft.getD 1 []).length = 2 ∧
    vote_labels unevenLeft (List.replicate 21 [9]) = .ok ([7], [9]) := by
  exact ⟨rfl, rfl, rfl⟩

/-- C5: a non-positive color-table entry-count field is interpreted as a
negated format version; every value of it other than −2 (version 2) fails
with the unsupported-version error, while the crafted version-2 file
`v2Bytes` decodes successfully. -/
theorem color_table_version_check :
    (∀ n : Int, n ≤ 0 → -n ≠ 2 → ∀ bs : List Nat,
      parseColorTable n bs = .error .unsupportedVersion) ∧
    read_annot v2Bytes false = .ok ([0], [[1, 0, 0, 255, 1]], [[120]]) := by
  refine ⟨fun n hn h2 bs => ?_, rfl⟩
  have hng : ¬ n > 0 := by omega
  simp [parseColorTable, hng, h2]

/-- Witness for C5's version check at the concrete field value 0. -/
theorem color_table_version_check_witness :
    parseColorTable 0 [] = .error .unsupportedVersion :=
  color_table_version_check.1 0 (by decide) (by decide) []

/-- C10: the `orig_ids` flag only changes the labels output: whenever both
modes succeed they return the identical color table and the identical name
list. -/
theorem read_annot_ctab_names_independent_of_orig_ids
    (bytes : List Nat) (l l' : List Int) (c c' : List (List Int))
    (n n' : List (List Nat))
    (hf : read_annot bytes false = .ok (l, c, n))
    (ht : read_annot bytes true = .ok (l', c', n')) :
    c = c' ∧ n = n' := by
  unfold read_annot at hf ht
  cases hcore : read_annot_core bytes with
  | error e =>
    rw [hcore] at hf
    simp [Bind.bind, Except.bind] at hf
  | ok t =>
    obtain ⟨l0, c0, n0⟩ := t
    rw [hcore] at hf ht
    simp only [Bind.bind, Except.bind, Bool.false_eq_true, if_false,
      if_true, reduceIte] at hf ht
    cases hrm : remapLabels c0 l0 with
    | error e =>
      rw [hrm] at hf
      simp [Bind.bind, Except.bind] at hf
    | ok out =>
      rw [hrm] at hf
      simp [Bind.bind, Except.bind] at hf ht
      obtain ⟨-, hc, hn⟩ := hf
      obtain ⟨-, hc', hn'⟩ := ht
      exact ⟨hc.symm.trans hc', hn.symm.trans hn'⟩

/-- Witness for C10 at the concrete legacy test file. -/
theorem read_annot_ctab_names_independent_witness :
    ([[5, 0, 0, 255, 5], [3, 0, 0, 255, 3]] : List (List Int)) =
      [[5, 0, 0, 255, 5], [3, 0, 0, 255, 3]] ∧
    ([[120], [121]] : List (List Nat)) = [[120], [121]] :=
  read_annot_ctab_names_independent_of_orig_ids legacyBytes [1] [3] _ _ _ _
    rfl rfl

/-- Shape of one parsed legacy entry row: five components with the packed
id computed from R, G, B, A. -/
theorem parseLegacyEntry_shape (bs : List Nat) (nm : List Nat)
    (row : List Int) (rest : List Nat)
    (h : parseLegacyEntry bs = .ok ((nm, row), rest)) :
    row.length = 5 ∧
    row.getD 4 0 = row.getD 0 0 + row.getD 1 0 * 2 ^ 8 +
      row.getD 2 0 * 2 ^ 16 + row.getD 3 0 * 2 ^ 24 := by
  unfold parseLegacyEntry at h
  simp only [Bind.bind, Except.bind] at h
  repeat' split at h
  all_goals try exact Except.noConfusion h
  all_goals simp only [Except.ok.injEq, Prod.mk.injEq] at h
  all_goals obtain ⟨⟨-, hrow⟩, -⟩ := h
  all_goals subst hrow
  all_goals exact ⟨rfl, rfl⟩

/-- Shape of one parsed version-2 entry row: five components with the
packed id computed from R, G, B (no A term). -/
theorem parseV2Entry_shape (bs : List Nat) (nm : List Nat)
    (row : List Int) (rest : List Nat)
    (h : parseV2Entry bs = .ok ((nm, row), rest)) :
    row.length = 5 ∧
    row.getD 4 0 = row.getD 0 0 + row.getD 1 0 * 2 ^ 8 +
      row.getD 2 0 * 2 ^ 16 := by
  unfold parseV2Entry at h
  simp only [Bind.bind, Except.bind] at h
  repeat' split at h
  all_goals try exact Except.noConfusion h
  all_goals simp only [Except.ok.injEq, Prod.mk.injEq] at h
  all_goals obtain ⟨⟨-, hrow⟩, -⟩ := h
  all_goals subst hrow
  all_goals exact ⟨rfl, rfl⟩

/-- Row invariant of the legacy entry loop. -/
theorem parseLegacyEntries_rows (n : Nat) (bs : List Nat)
    (names : List (List Nat)) (rows : List (List Int)) (rest : List Nat)
    (h : parseLegacyEntries n bs = .ok (names, rows, rest)) :
    ∀ row ∈ rows, row.length = 5 ∧
      row.getD 4 0 = row.getD 0 0 + row.getD 1 0 * 2 ^ 8 +
        row.getD 2 0 * 2 ^ 16 + row.getD 3 0 * 2 ^ 24 := by
  induction n generalizing bs names rows rest with
  | zero =>
    unfold parseLegacyEntries at h
    simp only [Except.ok.injEq, Prod.mk.injEq] at h
    obtain ⟨-, h2, -⟩ := h
    subst h2
    intro row hrow
    cases hrow
  | succ m ih =>
    unfold parseLegacyEntries at h
    cases hp : parseLegacyEntry bs with
    | error e =>
      rw [hp] at h
      exact absurd h (by simp [Bind.bind, Except.bind])
    | ok p =>
      obtain ⟨⟨nm0, row0⟩, bs0⟩ := p
      rw [hp] at h
      simp only [Bind.bind, Except.bind] at h
      cases hq : parseLegacyEntries m bs0 with
      | error e =>
        rw [hq] at h
        exact absurd h (by simp)
      | ok q =>
        obtain ⟨ns1, rows1, rest1⟩ := q
        rw [hq] at h
        simp only [Except.ok.injEq, Prod.mk.injEq] at h
        obtain ⟨-, h2, -⟩ := h
        subst h2
        intro row hrow
        rcases List.mem_cons.mp hrow with hx | hx
        · subst hx
          exact (parseLegacyEntry_shape bs nm0 row bs0 hp)
        · exact ih bs0 ns1 rows1 rest1 hq row hx

/-- Row invariant of the version-2 entry loop: rows of the accumulator
(initially the `np.zeros` table) satisfying the shape/packed property keep
satisfying it as entries are written. -/
theorem parseV2Entries_rows (todo : Nat) (i : Nat) (acc : List (List Int))
    (bs : List Nat) (names : List (List Nat)) (rows : List (List Int))
    (rest : List Nat)
    (h : parseV2Entries i todo acc bs = .ok (names, rows, rest))
    (hacc : ∀ row ∈ acc, row.length = 5 ∧
      row.getD 4 0 = row.getD 0 0 + row.getD 1 0 * 2 ^ 8 +
        row.getD 2 0 * 2 ^ 16) :
    ∀ row ∈ rows, row.length = 5 ∧
      row.getD 4 0 = row.getD 0 0 + row.getD 1 0 * 2 ^ 8 +
        row.getD 2 0 * 2 ^ 16 := by
  induction todo generalizing i acc bs names rows rest with
  | zero =>
    unfold parseV2Entries at h
    simp only [Except.ok.injEq, Prod.mk.injEq] at h
    obtain ⟨-, h2, -⟩ := h
    subst h2
    exact hacc
  | succ m ih =>
    unfold parseV2Entries at h
    cases hp : parseV2Entry bs with
    | error e =>
      rw [hp] at h
      exact absurd h (by simp [Bind.bind, Except.bind])
    | ok p =>
      obtain ⟨⟨nm0, row0⟩, bs0⟩ := p
      rw [hp] at h
      simp only [Bind.bind, Except.bind] at h
      split at h
      · cases hq : parseV2Entries (i + 1) m (acc.set i row0) bs0 with
        | error e =>
          rw [hq] at h
          exact absurd h (by simp [Bind.bind, Except.bind])
        | ok q =>
          obtain ⟨ns1, rows1, rest1⟩ := q
          rw [hq] at h
          simp only [Bind.bind, Except.bind, Except.ok.injEq,
            Prod.mk.injEq] at h
          obtain ⟨-, h2, -⟩ := h
          subst h2
          refine ih (i + 1) (acc.set i row0) bs0 ns1 rows1 rest1 hq ?_
          intro row hrow
          rcases List.mem_or_eq_of_mem_set hrow with hx | hx
          · exact hacc row hx
          · subst hx
            exact parseV2Entry_shape bs nm0 row bs0 hp
      · exact absurd h (by simp)

/-- Row invariant of `parseColorTable`: every row has five components and
its packed id follows the format's formula (with the A term for the legacy
format, without it for version 2; the untouched `np.zeros` rows of a
version-2 table satisfy the formula trivially). -/
theorem parseColorTable_rows (n : Int) (bs : List Nat)
    (rows : List (List Int)) (names : List (List Nat)) (rest : List Nat)
    (h : parseColorTable n bs = .ok (rows, names, rest)) :
    ∀ row ∈ rows, row.length = 5 ∧
      (0 < n → row.getD 4 0 = row.getD 0 0 + row.getD 1 0 * 2 ^ 8 +
        row.getD 2 0 * 2 ^ 16 + row.getD 3 0 * 2 ^ 24) ∧
      (n ≤ 0 → row.getD 4 0 = row.getD 0 0 + row.getD 1 0 * 2 ^ 8 +
        row.getD 2 0 * 2 ^ 16) := by
  unfold parseColorTable at h
  split at h
  · rename_i hn
    cases hp : readInt32 bs with
    | error e =>
      rw [hp] at h
      exact absurd h (by simp [Bind.bind, Except.bind])
    | ok p =>
      obtain ⟨len0, bs0⟩ := p
      rw [hp] at h
      simp only [Bind.bind, Except.bind] at h
      cases hq : parseLegacyEntries n.toNat (skipChars len0 bs0) with
      | error e =>
        rw [hq] at h
        exact absurd h (by simp)
      | ok q =>
        obtain ⟨ns1, rows1, rest1⟩ := q
        rw [hq] at h
        simp only [Except.ok.injEq, Prod.mk.injEq] at h
        obtain ⟨h1, -, -⟩ := h
        subst h1
        intro row hrow
        obtain ⟨hlen, hpack⟩ := parseLegacyEntries_rows _ _ _ _ _ hq row hrow
        exact ⟨hlen, fun _ => hpack, fun hle => absurd hn (by omega)⟩
  · rename_i hn
    split at h
    · exact absurd h (by simp)
    · rename_i hv
      cases hp : readInt32 bs with
      | error e =>
        rw [hp] at h
        exact absurd h (by simp [Bind.bind, Except.bind])
      | ok p =>
        obtain ⟨n2, bs0⟩ := p
        rw [hp] at h
        simp only [Bind.bind, Except.bind] at h
        split at h
        · exact absurd h (by simp)
        · rename_i hn2
          cases hp2 : readInt32 bs0 with
          | error e =>
            rw [hp2] at h
            exact absurd h (by simp [Bind.bind, Except.bind])
          | ok p2 =>
            obtain ⟨len0, bs1⟩ := p2
            rw [hp2] at h
            simp only [Bind.bind, Except.bind] at h
            cases hp3 : readString len0 bs1 with
            | error e =>
              rw [hp3] at h
              exact absurd h (by simp [Bind.bind, Except.bind])
            | ok p3 =>
              obtain ⟨s0, bs2⟩ := p3
              rw [hp3] at h
              simp only [Bind.bind, Except.bind] at h
              cases hp4 : readInt32 bs2 with
              | error e =>
                rw [hp4] at h
                exact absurd h (by simp [Bind.bind, Except.bind])
              | ok p4 =>
                obtain ⟨e0, bs3⟩ := p4
                rw [hp4] at h
                simp only [Bind.bind, Except.bind] at h
                cases hq : parseV2Entries 0 e0.toNat
                    (List.replicate n2.toNat (List.replicate 5 (0 : Int)))
                    bs3 with
                | error e =>
                  rw [hq] at h
                  exact absurd h (by simp)
                | ok q =>
                  obtain ⟨ns1, rows1, rest1⟩ := q
                  rw [hq] at h
                  simp only [Except.ok.injEq, Prod.mk.injEq] at h
                  obtain ⟨h1, -, -⟩ := h
                  subst h1
                  intro row hrow
                  have hz : ∀ r ∈ List.replicate n2.toNat
                      (List.replicate 5 (0 : Int)), r.length = 5 ∧
                      r.getD 4 0 = r.getD 0 0 + r.getD 1 0 * 2 ^ 8 +
                        r.getD 2 0 * 2 ^ 16 := by
                    intro r hr
                    rw [List.eq_of_mem_replicate hr]
                    exact ⟨rfl, rfl⟩
                  obtain ⟨hlen, hpack⟩ :=
                    parseV2Entries_rows _ _ _ _ _ _ _ hq hz row hrow
                  exact ⟨hlen, fun hpos => absurd hpos (by omega),
                    fun _ => hpack⟩

/-- A successful `read_annot` (either mode) contains a successful
`read_annot_core` with the same color table and names. -/
theorem read_annot_ok_core (bytes : List Nat) (o : Bool) (l : List Int)
    (c : List (List Int)) (nm : List (List Nat))
    (h : read_annot bytes o = .ok (l, c, nm)) :
    ∃ l0, read_annot_core bytes = .ok (l0, c, nm) := by
  unfold read_annot at h
  cases hcore : read_annot_core bytes with
  | error e =>
    rw [hcore] at h
    exact absurd h (by simp [Bind.bind, Except.bind])
  | ok t =>
    obtain ⟨l0, c0, n0⟩ := t
    rw [hcore] at h
    simp only [Bind.bind, Except.bind] at h
    cases o with
    | true =>
      simp only [if_pos] at h
      simp only [Except.ok.injEq, Prod.mk.injEq] at h
      obtain ⟨-, h2, h3⟩ := h
      exact ⟨l0, by rw [h2, h3]⟩
    | false =>
      simp only [Bool.false_eq_true, if_false] at h
      cases hrm : remapLabels c0 l0 with
      | error e =>
        rw [hrm] at h
        exact absurd h (by simp [Bind.bind, Except.bind])
      | ok out =>
        rw [hrm] at h
        simp only [Bind.bind, Except.bind, Except.ok.injEq,
          Prod.mk.injEq] at h
        obtain ⟨-, h2, h3⟩ := h
        exact ⟨l0, by rw [h2, h3]⟩

/-- The color table of a successful `read_annot_core` is a
`parseColorTable` result with its alpha column forced to 255. -/
theorem read_annot_core_ctab (bytes : List Nat) (l : List Int)
    (c : List (List Int)) (nm : List (List Nat))
    (h : read_annot_core bytes = .ok (l, c, nm)) :
    ∃ n bs rows names rest, parseColorTable n bs = .ok (rows, names, rest) ∧
      c = rows.map (fun row => row.set 3 255) := by
  unfold read_annot_core at h
  cases h1 : readInt32 bytes with
  | error e =>
    rw [h1] at h
    exact absurd h (by simp [Bind.bind, Except.bind])
  | ok p1 =>
    obtain ⟨vnum, bs1⟩ := p1
    rw [h1] at h
    simp only [Bind.bind, Except.bind] at h
    cases h2 : readVertexData vnum bs1 with
    | error e =>
      rw [h2] at h
      exact absurd h (by simp)
    | ok p2 =>
      obtain ⟨labels0, bs2⟩ := p2
      rw [h2] at h
      simp only at h
      cases h3 : readInt32 bs2 with
      | error e =>
        rw [h3] at h
        exact absurd h (by simp)
      | ok p3 =>
        obtain ⟨flag, bs3⟩ := p3
        rw [h3] at h
        simp only at h
        split at h
        · exact absurd h (by simp)
        · cases h4 : readInt32 bs3 with
          | error e =>
            rw [h4] at h
            exact absurd h (by simp)
          | ok p4 =>
            obtain ⟨nent, bs4⟩ := p4
            rw [h4] at h
            simp only at h
            cases h5 : parseColorTable nent bs4 with
            | error e =>
              rw [h5] at h
              exact absurd h (by simp)
            | ok p5 =>
              obtain ⟨rows0, names0, rest0⟩ := p5
              rw [h5] at h
              simp only [Except.ok.injEq, Prod.mk.injEq] at h
              obtain ⟨-, hc, -⟩ := h
              exact ⟨nent, bs4, rows0, names0, rest0, h5, hc.symm⟩

/-- Writing 255 at index 3 of a five-element row is read back by
`getD 3`. -/
theorem getD_set3 (r : List Int) (h : r.length = 5) :
    (r.set 3 255).getD 3 0 = 255 := by
  rcases r with _ | ⟨a, _ | ⟨b, _ | ⟨c, _ | ⟨d, r⟩⟩⟩⟩ <;> simp_all

/-- C8: after a successful decode, in either mode, every row of the
returned color table has alpha 255 — the normalization `ctab[:, 3] = 255`
applies on both the legacy and the version-2 parse path. -/
theorem read_annot_alpha_255 (bytes : List Nat) (o : Bool) (l : List Int)
    (c : List (List Int)) (nm : List (List Nat))
    (h : read_annot bytes o = .ok (l, c, nm)) :
    ∀ row ∈ c, row.getD 3 0 = 255 := by
  obtain ⟨l0, hcore⟩ := read_annot_ok_core bytes o l c nm h
  obtain ⟨n, bs, rows, names, rest, hpt, hc⟩ :=
    read_annot_core_ctab bytes l0 c nm hcore
  subst hc
  intro row hrow
  obtain ⟨r0, hr0, hset⟩ := List.mem_map.mp hrow
  obtain ⟨hlen, -, -⟩ := parseColorTable_rows n bs rows names rest hpt r0 hr0
  rw [← hset]
  exact getD_set3 r0 hlen

/-- Witness for C8 at the legacy test file. -/
theorem read_annot_alpha_255_witness :
    ([5, 0, 0, 255, 5] : List Int).getD 3 0 = 255 :=
  read_annot_alpha_255 legacyBytes false [1]
    [[5, 0, 0, 255, 5], [3, 0, 0, 255, 3]] [[120], [121]] rfl
    [5, 0, 0, 255, 5] (List.mem_cons_self _ _)

/-- C7: every parsed color-table row stores
`packed_id = R + G·2^8 + B·2^16 + A·2^24` in the legacy (positive
entry-count) format and `packed_id = R + G·2^8 + B·2^16` (no A term) in the
version-2 format. -/
theorem packed_id_formula (n : Int) (bs : List Nat) (rows : List (List Int))
    (names : List (List Nat)) (rest : List Nat)
    (h : parseColorTable n bs = .ok (rows, names, rest)) :
    ∀ row ∈ rows,
      (0 < n → row.getD 4 0 = row.getD 0 0 + row.getD 1 0 * 2 ^ 8 +
        row.getD 2 0 * 2 ^ 16 + row.getD 3 0 * 2 ^ 24) ∧
      (n ≤ 0 → row.getD 4 0 = row.getD 0 0 + row.getD 1 0 * 2 ^ 8 +
        row.getD 2 0 * 2 ^ 16) := by
  intro row hrow
  obtain ⟨-, h1, h2⟩ := parseColorTable_rows n bs rows names rest h row hrow
  exact ⟨h1, h2⟩

/-- Witness for C7 at the first entry of the legacy test table. -/
theorem packed_id_formula_witness :
    (0 < (2 : Int) → ([5, 0, 0, 0, 5] : List Int).getD 4 0 =
      ([5, 0, 0, 0, 5] : List Int).getD 0 0 +
      ([5, 0, 0, 0, 5] : List Int).getD 1 0 * 2 ^ 8 +
      ([5, 0, 0, 0, 5] : List Int).getD 2 0 * 2 ^ 16 +
      ([5, 0, 0, 0, 5] : List Int).getD 3 0 * 2 ^ 24) ∧
    ((2 : Int) ≤ 0 → ([5, 0, 0, 0, 5] : List Int).getD 4 0 =
      ([5, 0, 0, 0, 5] : List Int).getD 0 0 +
      ([5, 0, 0, 0, 5] : List Int).getD 1 0 * 2 ^ 8 +
      ([5, 0, 0, 0, 5] : List Int).getD 2 0 * 2 ^ 16) :=
  packed_id_formula 2 legacyTableBytes [[5, 0, 0, 0, 5], [3, 0, 0, 0, 3]]
    [[120], [121]] [] rfl [5, 0, 0, 0, 5] (List.mem_cons_self _ _)

/-- Pointwise description of a successful `Except` `mapM`. -/
theorem mapM_ok_get {α β : Type} (f : α → Except PyError β) :
    ∀ (l : List α) (out : List β), l.mapM f = .ok out →
      out.length = l.length ∧
      ∀ i d d', i < l.length → f (l.getD i d) = .ok (out.getD i d') := by
  intro l
  induction l with
  | nil =>
    intro out h
    simp only [List.mapM_nil, pure, Except.pure, Except.ok.injEq] at h
    subst h
    exact ⟨rfl, fun i d d' hi => absurd hi (by simp)⟩
  | cons a l ih =>
    intro out h
    rw [List.mapM_cons] at h
    cases hfa : f a with
    | error e =>
      rw [hfa] at h
      exact absurd h (by simp [Bind.bind, Except.bind])
    | ok b =>
      rw [hfa] at h
      simp only [Bind.bind, Except.bind] at h
      cases hml : l.mapM f with
      | error e =>
        rw [hml] at h
        exact absurd h (by simp)
      | ok bs =>
        rw [hml] at h
        simp only [pure, Except.pure, Except.ok.injEq] at h
        subst h
        obtain ⟨hlen, hget⟩ := ih bs hml
        refine ⟨by simp [hlen], fun i d d' hi => ?_⟩
        cases i with
        | zero => simpa using hfa
        | succ j => simpa using hget j d d' (by simpa using hi)

/-- Length of a successful `Option` `mapM`. -/
theorem optionMapM_length {α β : Type} (f : α → Option β) :
    ∀ (l : List α) (out : List β), l.mapM f = some out →
      out.length = l.length := by
  intro l
  induction l with
  | nil =>
    intro out h
    simp only [List.mapM_nil, pure, Option.some.injEq] at h
    subst h
    rfl
  | cons a l ih =>
    intro out h
    rw [List.mapM_cons] at h
    cases hfa : f a with
    | none =>
      rw [hfa] at h
      exact absurd h (by simp [Bind.bind, Option.bind])
    | some b =>
      rw [hfa] at h
      simp only [Bind.bind, Option.bind] at h
      cases hml : l.mapM f with
      | none =>
        rw [hml] at h
        exact absurd h (by simp)
      | some bs =>
        rw [hml] at h
        simp only [pure, Option.some.injEq] at h
        subst h
        simp [ih bs hml]

/-- C2 (amended): a tie between the maximal labels is resolved by the
counting dict's iteration order (CPython 2.7 hash-slot order), not by file
scan order: in the 10/10/1 single-vertex family with distinct labels
`a, b < 7` and one vote for 7, the winner is always `min a b` — the
smaller tied label — whichever of the two was scanned first. -/
theorem vote_labels_tiebreak_slot_order (a : Nat) (ha : a < 7) (b : Nat)
    (hb : b < 7) (hab : a ≠ b) :
    vote_labels
      (List.replicate 10 [(a : Int)] ++ List.replicate 10 [(b : Int)] ++ [[7]])
      (List.replicate 21 [0]) = .ok ([((min a b : Nat) : Int)], [0]) := by
  interval_cases a <;> interval_cases b <;>
    first
      | exact absurd rfl hab
      | decide

/-- Witness for C2's amended tie-break theorem at `a = 1`, `b = 0`. -/
theorem vote_labels_tiebreak_slot_order_witness :
    vote_labels
      (List.replicate 10 [(1 : Int)] ++ List.replicate 10 [(0 : Int)] ++ [[7]])
      (List.replicate 21 [0]) = .ok ([0], [0]) :=
  vote_labels_tiebreak_slot_order 1 (by decide) 0 (by decide) (by decide)

/-- C4 (amended): `vote_labels` applies no vertex-count consistency check
and raises no dedicated error on unequal-length vectors; whenever it
returns, each side's assignment has exactly the length of that side's
first vector, whatever the lengths of the remaining vectors. -/
theorem vote_labels_ok_lengths (L R : List (List Int)) (la ra l0 r0 : List Int)
    (hL : L.get? 0 = some l0) (hR : R.get? 0 = some r0)
    (h : vote_labels L R = .ok (la, ra)) :
    la.length = l0.length ∧ ra.length = r0.length := by
  unfold vote_labels at h
  rw [hL, hR] at h
  simp only [Bind.bind, Except.bind] at h
  cases hml : (List.range l0.length).mapM (voteVertex L) with
  | error e =>
    rw [hml] at h
    exact absurd h (by simp)
  | ok la0 =>
    rw [hml] at h
    simp only at h
    cases hmr : (List.range r0.length).mapM (voteVertex R) with
    | error e =>
      rw [hmr] at h
      exact absurd h (by simp)
    | ok ra0 =>
      rw [hmr] at h
      simp only [pure, Except.pure, Except.ok.injEq, Prod.mk.injEq] at h
      obtain ⟨h1, h2⟩ := h
      subst h1
      subst h2
      have e1 := (mapM_ok_get _ _ _ hml).1
      have e2 := (mapM_ok_get _ _ _ hmr).1
      rw [List.length_range] at e1 e2
      exact ⟨e1, e2⟩

/-- Witness for C4's amended theorem at the unequal-length collection. -/
theorem vote_labels_ok_lengths_witness :
    ([(7 : Int)] : List Int).length = ([(7 : Int)] : List Int).length ∧
    ([(9 : Int)] : List Int).length = ([(9 : Int)] : List Int).length :=
  vote_labels_ok_lengths unevenLeft (List.replicate 21 [9]) [7] [9] [7] [9]
    rfl rfl rfl

/-- The fresh table allocated by `dictresize` holds no keys. -/
theorem readKeys_replicate_none (n : Nat) :
    readKeys (List.replicate n (none : Option Int)) = [] := by
  induction n with
  | zero => rfl
  | succ m ih =>
    rw [List.replicate_succ]
    simpa only [readKeys, List.filterMap_cons] using ih

/-- Key membership in a slot array. -/
theorem mem_readKeys (slots : List (Option Int)) (x : Int) :
    x ∈ readKeys slots ↔ some x ∈ slots := by
  simp [readKeys, List.mem_filterMap]

/-- Membership after writing `some k` into a slot that is empty or already
holds `k`. -/
theorem mem_readKeys_set (slots : List (Option Int)) (s : Nat) (k x : Int)
    (hs : s < slots.length)
    (h : slots.getD s none = none ∨ slots.getD s none = some k) :
    x ∈ readKeys (slots.set s (some k)) ↔ x = k ∨ x ∈ readKeys slots := by
  have hg : slots.getD s none = slots[s] := by
    simp [List.getD_eq_getElem?_getD, List.getElem?_eq_getElem hs]
  rw [hg] at h
  constructor
  · intro hx
    rcases List.mem_or_eq_of_mem_set ((mem_readKeys _ _).mp hx) with hm | hm
    · exact Or.inr ((mem_readKeys _ _).mpr hm)
    · exact Or.inl (Option.some.inj hm)
  · intro hx
    rcases hx with rfl | hx
    · exact (mem_readKeys _ _).mpr (List.mem_set slots s hs (some x))
    · obtain ⟨j, hj, hjx⟩ := List.mem_iff_getElem.mp ((mem_readKeys _ _).mp hx)
      by_cases hsj : j = s
      · subst hsj
        rcases h with h | h
        · rw [hjx] at h
          exact absurd h (by simp)
        · rw [hjx] at h
          obtain rfl := Option.some.inj h
          exact (mem_readKeys _ _).mpr (List.mem_set slots j hj (some x))
      · refine (mem_readKeys _ _).mpr ?_
        have hj' : j < (slots.set s (some k)).length := by
          rw [List.length_set]
          exact hj
        exact List.mem_iff_getElem.mpr
          ⟨j, hj', (List.getElem_set_ne (fun c => hsj c.symm) hj').trans hjx⟩

/-- A successful probe stops at a slot that is empty or already holds the
key, and the returned slot index is in range. -/
theorem probeLoop_found (slots : List (Option Int)) (k : Int) :
    ∀ fuel i p s, probeLoop slots k fuel i p = some s →
      (slots.getD s none = none ∨ slots.getD s none = some k) ∧
      (0 < slots.length → s < slots.length) := by
  intro fuel
  induction fuel with
  | zero =>
    intro i p s h
    exact absurd h (by simp [probeLoop])
  | succ m ih =>
    intro i p s h
    simp only [probeLoop] at h
    split at h
    · rename_i heq
      obtain rfl := Option.some.inj h
      exact ⟨Or.inl heq, fun hp => Nat.mod_lt _ hp⟩
    · rename_i v heq
      split at h
      · rename_i hvk
        obtain rfl := Option.some.inj h
        subst hvk
        exact ⟨Or.inr heq, fun hp => Nat.mod_lt _ hp⟩
      · exact ih _ _ _ h

/-- `growSize` never shrinks its starting size. -/
theorem le_growSize (s m : Nat) : s ≤ growSize s m := by
  rw [growSize]
  split
  · rename_i h
    have hrec := le_growSize (2 * s) m
    omega
  · exact Nat.le_refl s
termination_by m + 1 - s
decreasing_by omega

/-- `insertClean` preserves the slot count and adds exactly the inserted
key to the key set. -/
theorem insertClean_mem (slots slots' : List (Option Int)) (k : Int)
    (hpos : 0 < slots.length) (h : insertClean slots k = some slots') :
    slots'.length = slots.length ∧ 0 < slots'.length ∧
    ∀ x, x ∈ readKeys slots' ↔ x = k ∨ x ∈ readKeys slots := by
  unfold insertClean at h
  cases hf : findSlot slots k with
  | none =>
    rw [hf] at h
    exact absurd h (by simp)
  | some s =>
    rw [hf] at h
    simp only [Option.map_some', Option.some.injEq] at h
    subst h
    unfold findSlot at hf
    obtain ⟨hcond, hbound⟩ := probeLoop_found slots k _ _ _ _ hf
    have hs : s < slots.length := hbound hpos
    refine ⟨List.length_set .., by simpa using hpos, fun x => ?_⟩
    exact mem_readKeys_set slots s k x hs hcond

/-- Folding `insertClean` over a key list adds exactly those keys. -/
theorem foldlM_insertClean_mem :
    ∀ (keys : List Int) (slots out : List (Option Int)),
      0 < slots.length → keys.foldlM insertClean slots = some out →
      out.length = slots.length ∧
      ∀ x, x ∈ readKeys out ↔ x ∈ keys ∨ x ∈ readKeys slots := by
  intro keys
  induction keys with
  | nil =>
    intro slots out hp h
    simp only [List.foldlM_nil, pure, Option.some.injEq] at h
    subst h
    exact ⟨rfl, fun x => by simp⟩
  | cons a keys ih =>
    intro slots out hp h
    rw [List.foldlM_cons] at h
    cases hic : insertClean slots a with
    | none =>
      rw [hic] at h
      exact absurd h (by simp [Bind.bind, Option.bind])
    | some slots1 =>
      rw [hic] at h
      simp only [Bind.bind, Option.bind] at h
      obtain ⟨hlen1, hp1, hmem1⟩ := insertClean_mem _ _ _ hp hic
      obtain ⟨hlen2, hmem2⟩ := ih slots1 out hp1 h
      refine ⟨hlen2.trans hlen1, fun x => ?_⟩
      rw [hmem2 x, hmem1 x, List.mem_cons]
      tauto

/-- `dictresize` preserves the key set and keeps a positive slot count. -/
theorem dictGrow_mem (t t' : PyTable) (h : dictGrow t = some t') :
    0 < t'.slots.length ∧
    ∀ x, x ∈ readKeys t'.slots ↔ x ∈ readKeys t.slots := by
  unfold dictGrow at h
  cases hf : (readKeys t.slots).foldlM insertClean
      (List.replicate (growSize 8 (4 * t.fill)) none) with
  | none =>
    rw [hf] at h
    exact absurd h (by simp [Bind.bind, Option.bind])
  | some out =>
    rw [hf] at h
    simp only [Bind.bind, Option.bind, pure, Option.some.injEq] at h
    subst h
    have hp : 0 < (List.replicate (growSize 8 (4 * t.fill))
        (none : Option Int)).length := by
      have := le_growSize 8 (4 * t.fill)
      simp only [List.length_replicate]
      omega
    obtain ⟨hlen, hmem⟩ := foldlM_insertClean_mem _ _ _ hp hf
    refine ⟨by simpa [hlen] using hp, fun x => ?_⟩
    rw [hmem x, readKeys_replicate_none]
    simp

/-- One `insertdict` step: inserting key `k` makes the key set exactly
`{k}` plus the previous keys, and keeps the slot count positive. -/
theorem insertKey_mem (t t' : PyTable) (k : Int)
    (hp : 0 < t.slots.length) (h : insertKey t k = some t') :
    0 < t'.slots.length ∧
    ∀ x, x ∈ readKeys t'.slots ↔ x = k ∨ x ∈ readKeys t.slots := by
  unfold insertKey at h
  cases hf : findSlot t.slots k with
  | none =>
    rw [hf] at h
    exact absurd h (by simp [Bind.bind, Option.bind])
  | some s =>
    rw [hf] at h
    simp only [Bind.bind, Option.bind] at h
    have hfc := hf
    unfold findSlot at hfc
    obtain ⟨hcond, hbound⟩ := probeLoop_found _ _ _ _ _ _ hfc
    have hs : s < t.slots.length := hbound hp
    split at h
    · rename_i v heq
      simp only [pure, Option.some.injEq] at h
      subst h
      rcases hcond with hc | hc
      · rw [heq] at hc
        exact absurd hc (by simp)
      · rw [heq] at hc
        have hvk : v = k := Option.some.inj hc
        rw [hvk] at heq
        have hg : t.slots.getD s none = t.slots[s] := by
          simp [List.getD_eq_getElem?_getD, List.getElem?_eq_getElem hs]
        have hk : k ∈ readKeys t.slots := by
          refine (mem_readKeys _ _).mpr ?_
          exact List.mem_iff_getElem.mpr ⟨s, hs, hg.symm.trans heq⟩
        refine ⟨hp, fun x => ⟨fun hx => Or.inr hx, ?_⟩⟩
        rintro (rfl | hx)
        · exact hk
        · exact hx
    · rename_i heq
      split at h
      · obtain ⟨hp', hmem'⟩ := dictGrow_mem _ _ h
        refine ⟨hp', fun x => ?_⟩
        rw [hmem' x]
        exact mem_readKeys_set t.slots s k x hs (Or.inl heq)
      · simp only [pure, Option.some.injEq] at h
        subst h
        refine ⟨by simpa using hp, fun x => ?_⟩
        exact mem_readKeys_set t.slots s k x hs (Or.inl heq)

/-- Folding `insertdict` over the elements of `l` collects exactly the
keys of `l` plus whatever was already present. -/
theorem foldlM_insertKey_mem :
    ∀ (l : List Int) (t0 t : PyTable), 0 < t0.slots.length →
      l.foldlM insertKey t0 = some t →
      0 < t.slots.length ∧
      ∀ x, x ∈ readKeys t.slots ↔ x ∈ l ∨ x ∈ readKeys t0.slots := by
  intro l
  induction l with
  | nil =>
    intro t0 t hp h
    simp only [List.foldlM_nil, pure, Option.some.injEq] at h
    subst h
    exact ⟨hp, fun x => by simp⟩
  | cons a l ih =>
    intro t0 t hp h
    rw [List.foldlM_cons] at h
    cases hik : insertKey t0 a with
    | none =>
      rw [hik] at h
      exact absurd h (by simp [Bind.bind, Option.bind])
    | some t1 =>
      rw [hik] at h
      simp only [Bind.bind, Option.bind] at h
      obtain ⟨hp1, hmem1⟩ := insertKey_mem t0 t1 a hp hik
      obtain ⟨hp2, hmem2⟩ := ih t1 t hp1 h
      refine ⟨hp2, fun x => ?_⟩
      rw [hmem2 x, hmem1 x, List.mem_cons]
      tauto

/-- The keys of `Counter(l)` are exactly the elements of `l`. -/
theorem counterTable_mem (l : List Int) (t : PyTable)
    (h : counterTable l = some t) :
    ∀ x, x ∈ readKeys t.slots ↔ x ∈ l := by
  unfold counterTable at h
  have h8 : 0 < ((⟨List.replicate 8 none, 0⟩ : PyTable)).slots.length := by
    simp
  obtain ⟨-, hmem⟩ := foldlM_insertKey_mem l ⟨List.replicate 8 none, 0⟩ t h8 h
  intro x
  rw [hmem x]
  simp [readKeys]

/-- The `max` fold keeps the first maximal item: the result is the
accumulator or an input, and its count dominates all inputs and the
accumulator. -/
theorem foldl_max_spec :
    ∀ (xs : List (Int × Nat)) (acc : Int × Nat),
      (xs.foldl (fun a y => if a.2 < y.2 then y else a) acc = acc ∨
        xs.foldl (fun a y => if a.2 < y.2 then y else a) acc ∈ xs) ∧
      acc.2 ≤ (xs.foldl (fun a y => if a.2 < y.2 then y else a) acc).2 ∧
      ∀ y ∈ xs, y.2 ≤ (xs.foldl (fun a y => if a.2 < y.2 then y else a) acc).2 := by
  intro xs
  induction xs with
  | nil =>
    intro acc
    exact ⟨Or.inl rfl, Nat.le_refl _, fun y hy => absurd hy (by simp)⟩
  | cons z zs ih =>
    intro acc
    rw [List.foldl_cons]
    obtain ⟨hin, hacc, hall⟩ := ih (if acc.2 < z.2 then z else acc)
    have hstep : acc.2 ≤ (if acc.2 < z.2 then z else acc).2 ∧
        z.2 ≤ (if acc.2 < z.2 then z else acc).2 := by
      split <;> rename_i hz <;> omega
    refine ⟨?_, le_trans hstep.1 hacc, ?_⟩
    · rcases hin with he | hm
      · rw [he]
        by_cases hz : acc.2 < z.2
        · rw [if_pos hz]
          exact Or.inr (List.mem_cons_self _ _)
        · rw [if_neg hz]
          exact Or.inl rfl
      · exact Or.inr (List.mem_cons_of_mem _ hm)
    · intro y hy
      rcases List.mem_cons.mp hy with rfl | hy
      · exact le_trans hstep.2 hacc
      · exact hall y hy

/-- `firstMaxByCount` returns an input item whose count dominates all
items. -/
theorem firstMaxByCount_spec (items : List (Int × Nat)) (kc : Int × Nat)
    (h : firstMaxByCount items = some kc) :
    kc ∈ items ∧ ∀ p ∈ items, p.2 ≤ kc.2 := by
  cases items with
  | nil => exact absurd h (by simp [firstMaxByCount])
  | cons x xs =>
    simp only [firstMaxByCount, Option.some.injEq] at h
    subst h
    obtain ⟨hin, hacc, hall⟩ := foldl_max_spec xs x
    constructor
    · rcases hin with he | hm
      · rw [he]
        exact List.mem_cons_self _ _
      · exact List.mem_cons_of_mem _ hm
    · intro p hp
      rcases List.mem_cons.mp hp with rfl | hp
      · exact hacc
      · exact hall p hp

/-- Items of `Counter(l)`: each is an element of `l` paired with its
count, and every element of `l` appears. -/
theorem counterItems_spec (l : List Int) (items : List (Int × Nat))
    (h : counterItems l = some items) :
    (∀ p ∈ items, p.1 ∈ l ∧ p.2 = l.count p.1) ∧
    ∀ x ∈ l, (x, l.count x) ∈ items := by
  unfold counterItems at h
  cases hct : counterTable l with
  | none =>
    rw [hct] at h
    exact absurd h (by simp)
  | some t =>
    rw [hct] at h
    simp only [Option.map_some', Option.some.injEq] at h
    subst h
    have hmem := counterTable_mem l t hct
    constructor
    · intro p hp
      obtain ⟨k, hk, hkp⟩ := List.mem_map.mp hp
      rw [← hkp]
      exact ⟨(hmem k).mp hk, rfl⟩
    · intro x hx
      exact List.mem_map.mpr ⟨x, (hmem x).mpr hx, rfl⟩

/-- Head of `most_common(1)`: a maximal-frequency element of the votes. -/
theorem mostCommon1_spec (l : List Int) (k : Int) (c : Nat)
    (h : mostCommon1 l = some (some (k, c))) :
    k ∈ l ∧ ∀ x : Int, l.count x ≤ l.count k := by
  unfold mostCommon1 at h
  cases hci : counterItems l with
  | none =>
    rw [hci] at h
    exact absurd h (by simp)
  | some items =>
    rw [hci] at h
    simp only [Option.map_some', Option.some.injEq] at h
    obtain ⟨hall, hev⟩ := counterItems_spec l items hci
    obtain ⟨hin, hmax⟩ := firstMaxByCount_spec items (k, c) h
    obtain ⟨hkl, hkc⟩ := hall (k, c) hin
    refine ⟨hkl, fun x => ?_⟩
    by_cases hx : x ∈ l
    · have hle := hmax (x, l.count x) (hev x hx)
      rw [hkc] at hle
      exact hle
    · rw [List.count_eq_zero.mpr hx]
      exact Nat.zero_le _

/-- A successful per-vertex vote returns a most frequent value of the 21
hard-coded votes. -/
theorem voteVertex_spec (ls : List (List Int)) (v : Nat) (w : Int)
    (h : voteVertex ls v = .ok w) :
    ∃ votes, buildVotes ls v = some votes ∧ votes.length = 21 ∧
      w ∈ votes ∧ ∀ x : Int, votes.count x ≤ votes.count w := by
  unfold voteVertex at h
  split at h
  · exact absurd h (by simp)
  · rename_i votes hb
    split at h
    · exact absurd h (by simp)
    · exact absurd h (by simp)
    · rename_i kc hmc
      obtain ⟨k, c⟩ := kc
      simp only [Except.ok.injEq] at h
      subst h
      obtain ⟨hmem, hmax⟩ := mostCommon1_spec votes k c hmc
      have hlen : votes.length = 21 := by
        unfold buildVotes at hb
        have := optionMapM_length _ _ _ hb
        simpa using this
      exact ⟨votes, hb, hlen, hmem, hmax⟩

/-- C3 (amended): the per-vertex tally ranges over exactly the 21 votes
`labels[0][v] … labels[20][v]` — the source hard-codes `xrange(21)`
whatever the collection size — and whenever `vote_labels` returns, each
assigned label is a most frequent value among those 21 votes. -/
theorem vote_labels_majority_of_21 (L R : List (List Int))
    (la ra : List Int) (h : vote_labels L R = .ok (la, ra)) (v : Nat)
    (hv : v < la.length) :
    ∃ votes, buildVotes L v = some votes ∧ votes.length = 21 ∧
      la.getD v (-1) ∈ votes ∧
      ∀ x : Int, votes.count x ≤ votes.count (la.getD v (-1)) := by
  unfold vote_labels at h
  cases hL : L.get? 0 with
  | none =>
    rw [hL] at h
    exact absurd h (by simp [Bind.bind, Except.bind])
  | some l0 =>
    rw [hL] at h
    simp only [Bind.bind, Except.bind] at h
    cases hR : R.get? 0 with
    | none =>
      rw [hR] at h
      exact absurd h (by simp)
    | some r0 =>
      rw [hR] at h
      simp only at h
      cases hml : (List.range l0.length).mapM (voteVertex L) with
      | error e =>
        rw [hml] at h
        exact absurd h (by simp)
      | ok la0 =>
        rw [hml] at h
        simp only at h
        cases hmr : (List.range r0.length).mapM (voteVertex R) with
        | error e =>
          rw [hmr] at h
          exact absurd h (by simp)
        | ok ra0 =>
          rw [hmr] at h
          simp only [pure, Except.pure, Except.ok.injEq, Prod.mk.injEq] at h
          obtain ⟨h1, -⟩ := h
          subst h1
          obtain ⟨hlen, hget⟩ := mapM_ok_get _ _ _ hml
          rw [List.length_range] at hlen
          have hvn : v < l0.length := by omega
          have hstep := hget v 0 (-1) (by simpa using hvn)
          have hrg : (List.range l0.length).getD v 0 = v := by
            simp [List.getD_eq_getElem?_getD, List.getElem?_range hvn]
          rw [hrg] at hstep
          exact voteVertex_spec L v _ hstep

/-- Witness for C3's amended theorem on 21 identical single-vertex
files. -/
theorem vote_labels_majority_of_21_witness :
    ∃ votes, buildVotes (List.replicate 21 [(4 : Int)]) 0 = some votes ∧
      votes.length = 21 ∧ (4 : Int) ∈ votes ∧
      ∀ x : Int, votes.count x ≤ votes.count 4 :=
  vote_labels_majority_of_21 (List.replicate 21 [4]) (List.replicate 21 [4])
    [4] [4] rfl 0 (by decide)

/-- `getD` with an in-range index is `getElem`. -/
theorem getD_eq_getElem_int (a : List Int) (i : Nat) (h : i < a.length) :
    a.getD i 0 = a[i] := by
  simp [List.getD_eq_getElem?_getD, List.getElem?_eq_getElem h]

/-- Sortedness read through `getD`. -/
theorem pairwise_getD_le (a : List Int) (hs : List.Pairwise (· ≤ ·) a)
    (i j : Nat) (hij : i ≤ j) (hj : j < a.length) :
    a.getD i 0 ≤ a.getD j 0 := by
  rcases Nat.eq_or_lt_of_le hij with rfl | hlt
  · exact le_refl _
  · have hi : i < a.length := Nat.lt_trans hlt hj
    have hpw := (List.pairwise_iff_getElem.mp hs) i j hi hj hlt
    rw [getD_eq_getElem_int a i hi, getD_eq_getElem_int a j hj]
    exact hpw

/-- Invariant of the `searchsorted` bisection on a sorted array: the
returned index separates the values `< v` from the values `≥ v`. -/
theorem bisectLoop_spec (a : List Int) (v : Int)
    (hs : List.Pairwise (· ≤ ·) a) :
    ∀ fuel lo hi, hi ≤ a.length → lo ≤ hi → hi - lo < 2 ^ fuel →
      (∀ i, i < lo → a.getD i 0 < v) →
      (∀ i, hi ≤ i → i < a.length → ¬ a.getD i 0 < v) →
      lo ≤ bisectLoop a v fuel lo hi ∧ bisectLoop a v fuel lo hi ≤ hi ∧
      (∀ i, i < bisectLoop a v fuel lo hi → a.getD i 0 < v) ∧
      (∀ i, bisectLoop a v fuel lo hi ≤ i → i < a.length →
        ¬ a.getD i 0 < v) := by
  intro fuel
  induction fuel with
  | zero =>
    intro lo hi hhi hlohi hsize hleft hright
    have hgoal : hi = lo := by simp at hsize; omega
    subst hgoal
    simp only [bisectLoop]
    exact ⟨Nat.le_refl _, Nat.le_refl _, hleft, hright⟩
  | succ m ih =>
    intro lo hi hhi hlohi hsize hleft hright
    simp only [bisectLoop]
    split
    · rename_i hlt
      have hmidlt : lo + (hi - lo) / 2 < hi := by omega
      have hmidlen : lo + (hi - lo) / 2 < a.length :=
        Nat.lt_of_lt_of_le hmidlt hhi
      rw [Nat.pow_succ] at hsize
      split
      · rename_i hvm
        have hleft' : ∀ i, i < lo + (hi - lo) / 2 + 1 → a.getD i 0 < v := by
          intro i hi2
          rcases Nat.lt_or_ge i lo with hcase | hcase
          · exact hleft i hcase
          · exact lt_of_le_of_lt
              (pairwise_getD_le a hs i _ (by omega) hmidlen) hvm
        obtain ⟨ha, hb, hc, hd⟩ := ih (lo + (hi - lo) / 2 + 1) hi hhi
          (by omega) (by omega) hleft' hright
        exact ⟨by omega, hb, hc, hd⟩
      · rename_i hvm
        have hright' : ∀ i, lo + (hi - lo) / 2 ≤ i → i < a.length →
            ¬ a.getD i 0 < v := by
          intro i hi1 hi2 hcon
          exact hvm (lt_of_le_of_lt (pairwise_getD_le a hs _ i hi1 hi2) hcon)
        obtain ⟨ha, hb, hc, hd⟩ := ih lo (lo + (hi - lo) / 2)
          (Nat.le_of_lt hmidlen) (by omega) (by omega) hleft hright'
        exact ⟨ha, by omega, hc, hd⟩
    · rename_i hge
      exact ⟨Nat.le_refl _, hlohi, hleft,
        fun i h1 h2 => hright i (by omega) h2⟩

/-- On a sorted array with pairwise-distinct values containing `v` at
position `k`, `searchsorted` returns exactly `k`. -/
theorem searchsorted_eq_index (a : List Int) (v : Int) (k : Nat)
    (hs : List.Pairwise (· ≤ ·) a) (hnd : a.Nodup) (hk : k < a.length)
    (hv : a.getD k 0 = v) : searchsorted a v = k := by
  unfold searchsorted
  obtain ⟨h1, h2, h3, h4⟩ := bisectLoop_spec a v hs a.length 0 a.length
    (Nat.le_refl _) (Nat.zero_le _) (by simpa using Nat.lt_two_pow _)
    (fun i hi => absurd hi (Nat.not_lt_zero _))
    (fun i hi1 hi2 => absurd hi1 (by omega))
  set r := bisectLoop a v a.length 0 a.length with hr
  have hkr : r ≤ k := by
    by_contra hcon
    push_neg at hcon
    exact absurd (h3 k hcon) (by rw [hv]; exact lt_irrefl v)
  rcases Nat.eq_or_lt_of_le hkr with he | hlt
  · exact he
  · exfalso
    have hrlen : r < a.length := Nat.lt_trans hlt hk
    have hge : ¬ a.getD r 0 < v := h4 r (Nat.le_refl _) hrlen
    have hle : a.getD r 0 ≤ a.getD k 0 :=
      pairwise_getD_le a hs r k (Nat.le_of_lt hlt) hk
    have heq : a.getD r 0 = v := le_antisymm (hv ▸ hle) (not_lt.mp hge)
    have hne : a[r] ≠ a[k] :=
      (List.pairwise_iff_getElem.mp hnd) r k hrlen hk hlt
    rw [← getD_eq_getElem_int a r hrlen, ← getD_eq_getElem_int a k hk] at hne
    exact hne (heq.trans hv.symm)

/-- `argsort` is a permutation of the index range. -/
theorem argsort_perm (keys : List Int) :
    (argsort keys).Perm (List.range keys.length) :=
  List.perm_insertionSort _ _

/-- `argsort` lists indices in order of nondecreasing key. -/
theorem argsort_sorted (keys : List Int) :
    List.Pairwise (fun i j => keys.getD i 0 ≤ keys.getD j 0)
      (argsort keys) := by
  haveI h1 : IsTotal Nat (fun i j => keys.getD i 0 ≤ keys.getD j 0) :=
    ⟨fun i j => le_total _ _⟩
  haveI h2 : IsTrans Nat (fun i j => keys.getD i 0 ≤ keys.getD j 0) :=
    ⟨fun i j l hij hjl => le_trans hij hjl⟩
  exact List.sorted_insertionSort _ _

/-- Mapping `getD` over the index range reproduces the list. -/
theorem map_getD_range (l : List Int) :
    (List.range l.length).map (fun i => l.getD i 0) = l := by
  apply List.ext_getElem
  · simp
  · intro i h1 h2
    simp [getD_eq_getElem_int l i h2, List.getElem?_eq_getElem h2]

/-- Correctness of one id-remap step: looking up the packed id of entry
`k` (packed ids pairwise distinct) through
`ord[searchsorted(packed[ord], ·)]` returns exactly `k`, the original
color-table position of the matching entry. -/
theorem remap_one_correct (packed : List Int) (hnd : packed.Nodup) (k : Nat)
    (hk : k < packed.length) :
    (argsort packed).get?
      (searchsorted ((argsort packed).map (fun i => packed.getD i 0))
        (packed.getD k 0)) = some k := by
  have hperm := argsort_perm packed
  have hsorted : List.Pairwise (· ≤ ·)
      ((argsort packed).map (fun i => packed.getD i 0)) := by
    rw [List.pairwise_map]
    exact argsort_sorted packed
  have hspperm : ((argsort packed).map (fun i => packed.getD i 0)).Perm
      packed := by
    have hp := hperm.map (fun i => packed.getD i 0)
    rwa [map_getD_range] at hp
  have hspnd : ((argsort packed).map (fun i => packed.getD i 0)).Nodup :=
    hspperm.nodup_iff.mpr hnd
  have hvmem : packed.getD k 0 ∈
      (argsort packed).map (fun i => packed.getD i 0) := by
    refine hspperm.mem_iff.mpr ?_
    rw [getD_eq_getElem_int packed k hk]
    exact List.getElem_mem hk
  obtain ⟨j, hj, hjval⟩ := List.mem_iff_getElem.mp hvmem
  have hss : searchsorted ((argsort packed).map (fun i => packed.getD i 0))
      (packed.getD k 0) = j :=
    searchsorted_eq_index _ _ j hsorted hspnd hj
      (by rw [getD_eq_getElem_int _ j hj]; exact hjval)
  rw [hss]
  have hjord : j < (argsort packed).length := by
    have hlen : ((argsort packed).map (fun i => packed.getD i 0)).length =
        (argsort packed).length := List.length_map _ _
    omega
  have hoj : (argsort packed)[j] < packed.length :=
    List.mem_range.mp (hperm.mem_iff.mp (List.getElem_mem hjord))
  have h1 : ((argsort packed).map (fun i => packed.getD i 0))[j] =
      packed.getD ((argsort packed)[j]) 0 := by
    simp
  have h3 : packed.getD ((argsort packed)[j]) 0 = packed.getD k 0 := by
    rw [← h1]
    exact hjval
  have h2 : packed[(argsort packed)[j]] = packed[k] := by
    rw [← getD_eq_getElem_int _ _ hoj, ← getD_eq_getElem_int _ _ hk]
    exact h3
  have hordjk : (argsort packed)[j] = k :=
    (List.Nodup.getElem_inj_iff hnd).mp h2
  rw [List.get?_eq_getElem?, List.getElem?_eq_getElem hjord, hordjk]

/-- A successful id remap sends a raw label equal to the packed id of
entry `k` (packed ids pairwise distinct) to the output label `k`. -/
theorem remapLabels_spec (ctab : List (List Int)) (labels out : List Int)
    (hnd : (ctab.map (fun row => row.getD 4 0)).Nodup)
    (h : remapLabels ctab labels = .ok out) :
    ∀ v k, v < labels.length → k < ctab.length →
      labels.getD v 0 = (ctab.getD k []).getD 4 0 →
      out.getD v 0 = (k : Int) := by
  unfold remapLabels at h
  obtain ⟨hlen, hget⟩ := mapM_ok_get _ _ _ h
  intro v k hv hk hmatch
  have hkp : k < (ctab.map (fun row => row.getD 4 0)).length := by
    simpa using hk
  have hval : labels.getD v 0 =
      (ctab.map (fun row => row.getD 4 0)).getD k 0 := by
    rw [hmatch, getD_eq_getElem_int _ k hkp]
    simp [List.getD_eq_getElem?_getD, List.getElem?_eq_getElem hk]
  have hstep := hget v 0 0 hv
  simp only [hval] at hstep
  rw [remap_one_correct (ctab.map (fun row => row.getD 4 0)) hnd k hkp]
    at hstep
  simp only [Except.ok.injEq] at hstep
  exact hstep.symm

/-- C1 counterexample: in the legacy test file the packed ids appear in
file order 5, 3; the single vertex's raw label 3 has sorted rank 0, yet
the decoder outputs label 1 — `ord[rank]`, the original table position of
the matching entry — not the sorted rank. -/
theorem read_annot_not_sorted_rank :
    read_annot legacyBytes true =
      .ok ([3], [[5, 0, 0, 255, 5], [3, 0, 0, 255, 3]], [[120], [121]]) ∧
    read_annot legacyBytes false =
      .ok ([1], [[5, 0, 0, 255, 5], [3, 0, 0, 255, 3]], [[120], [121]]) ∧
    specSortedRank [5, 3] 3 = 0 ∧ (1 : Int) ≠ 0 := by
  exact ⟨rfl, rfl, rfl, by decide⟩

/-- C1 (amended): with `keep_original_ids` false the decoder argsorts the
packed ids, binary-searches each raw label in the sorted packed-id
sequence, and outputs `ord[rank]` — the original color-table position of
the matching entry, not the sorted rank itself: whenever both decode modes
succeed and the packed ids are pairwise distinct, a vertex whose raw label
equals the packed id of table entry `k` is output as label `k`, so output
labels densely index the color table in its file order. -/
theorem read_annot_remap_matches_entry (bytes : List Nat)
    (labels raw : List Int) (ctab ctab2 : List (List Int))
    (names names2 : List (List Nat))
    (hf : read_annot bytes false = .ok (labels, ctab, names))
    (ht : read_annot bytes true = .ok (raw, ctab2, names2))
    (hnd : (ctab.map (fun row => row.getD 4 0)).Nodup)
    (v k : Nat) (hv : v < labels.length) (hk : k < ctab.length)
    (hmatch : raw.getD v 0 = (ctab.getD k []).getD 4 0) :
    labels.getD v 0 = (k : Int) := by
  unfold read_annot at hf ht
  cases hcore : read_annot_core bytes with
  | error e =>
    rw [hcore] at hf
    exact absurd hf (by simp [Bind.bind, Except.bind])
  | ok t =>
    obtain ⟨l0, c0, n0⟩ := t
    rw [hcore] at hf ht
    simp only [Bind.bind, Except.bind, if_pos, Except.ok.injEq,
      Prod.mk.injEq] at ht
    obtain ⟨hl0, hc0, -⟩ := ht
    simp only [Bind.bind, Except.bind, Bool.false_eq_true, if_false] at hf
    cases hrm : remapLabels c0 l0 with
    | error e =>
      rw [hrm] at hf
      exact absurd hf (by simp)
    | ok out =>
      rw [hrm] at hf
      simp only [Except.ok.injEq, Prod.mk.injEq] at hf
      obtain ⟨hout, hctab, -⟩ := hf
      have hlv : v < l0.length := by
        have hlen := (mapM_ok_get _ _ _ hrm).1
        rw [hout] at hlen
        omega
      have hres := remapLabels_spec c0 l0 out (by rw [hctab]; exact hnd) hrm
        v k hlv (by rw [hctab]; exact hk) (by rw [hl0, hctab]; exact hmatch)
      rw [← hout]
      exact hres

/-- Witness for C1's amended theorem at the legacy test file: the raw
label 3 matches entry 1, and the decoded label is 1. -/
theorem read_annot_remap_matches_entry_witness :
    ([1] : List Int).getD 0 0 = ((1 : Nat) : Int) :=
  read_annot_remap_matches_entry legacyBytes [1] [3]
    [[5, 0, 0, 255, 5], [3, 0, 0, 255, 3]]
    [[5, 0, 0, 255, 5], [3, 0, 0, 255, 3]] [[120], [121]] [[120], [121]]
    rfl rfl (by decide) 0 1 (by decide) (by decide) (by decide)
